import Mathlib

/-!
Shallow embedding of the PCB dataset accessor (`api/cxx/pcbdataset.cpp`,
`api/cxx/pcbdataset.hpp`) and proofs about its annotation parsing, filtering,
caching, crop resolution and directory scanning logic.

Machine floats (`float`/`double`) are modelled by exact rationals `ℚ`;
`cv::Rect` (integer rectangle) by a structure over `ℤ`; the external OpenCV
collaborators (`findContours`, `minAreaRect(...).size.area()`, `boundingRect`)
are inputs of the embedding, as the spec treats them as external collaborators.
Fallible C++ operations (`std::stoi`/`std::stof` which throw, thrown
`runtime_error`s) are modelled with `Option`/`Except`.
-/

namespace Pcbdataset

/-- `cv::Point2f` with exact rational coordinates. -/
structure Point2f where
  x : ℚ
  y : ℚ
deriving DecidableEq

/-- `cv::Size2f` with exact rational dimensions. -/
structure Size2f where
  width : ℚ
  height : ℚ
deriving DecidableEq

/-- `cv::RotatedRect`: center, size, rotation angle in degrees. -/
structure RotatedRect where
  center : Point2f
  size : Size2f
  angle : ℚ
deriving DecidableEq

/-- `cv::Rect`: integer axis-aligned rectangle (x, y, width, height). -/
structure Rect where
  x : ℤ
  y : ℤ
  width : ℤ
  height : ℤ
deriving DecidableEq

/-- `pcbdataset::Annot`: an annotated PCB component (rect, scale factor, label). -/
structure Annot where
  rect : RotatedRect
  scale : ℚ
  text : String
deriving DecidableEq

/-- The pixels-per-cm constant 87.4 used by `Annot::sizeCm2`. -/
def ppcm : ℚ := 874 / 10

/-- `Annot::sizePixels`: `rect.size.area()`, divided by `scale` when `scaled` is false. -/
def Annot.sizePixels (a : Annot) (scaled : Bool) : ℚ :=
  let sz := a.rect.size.width * a.rect.size.height
  if scaled then sz else sz / a.scale

/-- `Annot::sizeCm2`: `(width / 87.4) * (height / 87.4)`, divided by `scale`
when `scaled` is false. -/
def Annot.sizeCm2 (a : Annot) (scaled : Bool) : ℚ :=
  let sz := (a.rect.size.width / ppcm) * (a.rect.size.height / ppcm)
  if scaled then sz else sz / a.scale

/-- `Annot::aspect`: `max(width, height) / min(width, height)`. -/
def Annot.aspect (a : Annot) : ℚ :=
  max a.rect.size.width a.rect.size.height / min a.rect.size.width a.rect.size.height

/-- Whitespace characters recognised by `isspace` in the default C locale
(used by `std::stoi` / `std::stof` to skip leading whitespace). -/
def isSpaceChar (c : Char) : Bool :=
  c = ' ' || c = '\t' || c = '\n' || c = '\x0b' || c = '\x0c' || c = '\r'

/-- Value of a run of decimal digits read left to right. -/
def natVal (ds : List Char) : ℕ :=
  ds.foldl (fun acc c => acc * 10 + (c.toNat - 48)) 0

/-- Fractional value of the digits after a decimal point. -/
def fracVal (ds : List Char) : ℚ :=
  ds.foldr (fun c acc => (((c.toNat - 48 : ℕ) : ℚ) + acc) / 10) 0

/-- Helper for `stoi`: after sign handling, the longest initial digit run is the
value; no digits at all means `std::stoi` throws (`none`). -/
def stoiAux (sign : ℤ) (cs : List Char) : Option ℤ :=
  let ds := cs.takeWhile Char.isDigit
  if ds.isEmpty then none else some (sign * (natVal ds : ℤ))

/-- Models `std::stoi`: skip leading whitespace, optional sign, then the longest
initial run of decimal digits; trailing non-digits are ignored; no digit at all
throws `invalid_argument` (`none`). `out_of_range` is not modelled (unbounded `ℤ`). -/
def stoi (s : String) : Option ℤ :=
  match s.data.dropWhile isSpaceChar with
  | '+' :: cs => stoiAux 1 cs
  | '-' :: cs => stoiAux (-1) cs
  | cs => stoiAux 1 cs

/-- Helper for `stof`: integer part, optional decimal point and fraction part;
at least one digit overall is required, else `std::stof` throws (`none`). -/
def stofAux (sign : ℚ) (cs : List Char) : Option ℚ :=
  let ip := cs.takeWhile Char.isDigit
  match cs.dropWhile Char.isDigit with
  | '.' :: fs =>
    let fp := fs.takeWhile Char.isDigit
    if ip.isEmpty ∧ fp.isEmpty then none
    else some (sign * ((natVal ip : ℚ) + fracVal fp))
  | _ => if ip.isEmpty then none else some (sign * (natVal ip : ℚ))

/-- Models `std::stof` on plain decimal literals (the form used by the
annotation files): skip leading whitespace, optional sign, digits with an
optional fraction; exact rational arithmetic stands in for binary `float`;
exponent/hex/inf/nan forms are not modelled; no digit at all throws (`none`). -/
def stof (s : String) : Option ℚ :=
  match s.data.dropWhile isSpaceChar with
  | '+' :: cs => stofAux 1 cs
  | '-' :: cs => stofAux (-1) cs
  | cs => stofAux 1 cs

/-- Helper for `splitSpace`: `acc` holds the characters of the current token
in reverse. -/
def splitSpaceAux : List Char → List Char → List String
  | acc, [] => [String.mk acc.reverse]
  | acc, c :: cs =>
    if c = ' ' then String.mk acc.reverse :: splitSpaceAux [] cs
    else splitSpaceAux (c :: acc) cs

/-- `boost::split(split, line, boost::is_any_of(" "))`: split at every space
character, keeping empty tokens (same behaviour as `String.splitOn " "`;
written by structural recursion over the character list so proofs can
evaluate it). -/
def splitSpace (s : String) : List String := splitSpaceAux [] s.data

/-- One line of `PCB::ics`'s parsing: `boost::split` on single spaces (keeping
empty tokens), at least 5 fields required, the first five parsed with
`std::stof` into a rotated rect; the remaining tokens (indices ≥ 5) are kept
for label joining. `none` models the thrown `runtime_error` / `stof` failure. -/
def parseLine (line : String) : Option (RotatedRect × List String) :=
  match splitSpace line with
  | f0 :: f1 :: f2 :: f3 :: f4 :: rest => do
    let cx ← stof f0
    let cy ← stof f1
    let w ← stof f2
    let h ← stof f3
    let ang ← stof f4
    pure (⟨⟨cx, cy⟩, ⟨w, h⟩, ang⟩, rest)
  | _ => none

/-- The four sequential `continue` tests of `PCB::ics` on the unscaled parsed
rect (wrapped in a temporary `Annot` with scale 1): returns `true` when the
line survives all filters. -/
def icsLineKeep (rr : RotatedRect) (size aspect : ℚ × ℚ) : Bool :=
  let tmp : Annot := ⟨rr, 1, ""⟩
  if size.1 > 0 ∧ tmp.sizeCm2 false < size.1 then false
  else if size.2 > 0 ∧ tmp.sizeCm2 false > size.2 then false
  else if aspect.1 > 0 ∧ tmp.aspect < aspect.1 then false
  else if aspect.2 > 0 ∧ tmp.aspect > aspect.2 then false
  else true

/-- The `scale != 1` branch of `PCB::ics`: multiply center and size by the
PCB's scale factor, angle unchanged. -/
def scaleRect (rr : RotatedRect) (scale : ℚ) : RotatedRect :=
  if scale ≠ 1 then
    ⟨⟨rr.center.x * scale, rr.center.y * scale⟩,
     ⟨rr.size.width * scale, rr.size.height * scale⟩, rr.angle⟩
  else rr

/-- The `cropped` branch of `PCB::ics`: subtract the crop rectangle's top-left
corner from the center. -/
def cropAdjust (rr : RotatedRect) (ci : Rect) : RotatedRect :=
  ⟨⟨rr.center.x - (ci.x : ℚ), rr.center.y - (ci.y : ℚ)⟩, rr.size, rr.angle⟩

/-- The label-joining loop of `PCB::ics`: each nonempty token is emitted, and a
single space follows it whenever its index is not the last index of the split
(regardless of whether the later tokens are empty). -/
def joinLabel : List String → String
  | [] => ""
  | [t] => if t.isEmpty then "" else t
  | t :: u :: rest => (if t.isEmpty then "" else t ++ " ") ++ joinLabel (u :: rest)

/-- A contour as returned by `cv::findContours`: a list of integer points. -/
abbrev Contour := List (ℤ × ℤ)

/-- Errors surfaced by `PCB::ics` / `PCB::_cropinfo`. `emptyContoursAccess`
marks the out-of-bounds access `cnt[cnt.size()-1]` performed when the contour
vector is empty — in C++ this is undefined behaviour, not a thrown error. -/
inductive Err
  | recordingNotFound
  | annotFileMissing
  | malformedLine
  | maskError
  | emptyContoursAccess
deriving DecidableEq

/-- The read-only environment of one `PCB` instance: its scale factor, the
registered recording IDs, the lines of each recording's annotation file
(`none` = file missing), and the external OpenCV collaborators: the contours
`cv::findContours` extracts from the decoded mask (`none` = mask missing or
undecodable), `cv::minAreaRect(c).size.area()` and `cv::boundingRect(c)`. -/
structure Env where
  scale : ℚ
  recs : List ℤ
  annot : ℤ → Option (List String)
  contours : ℤ → Option (List Contour)
  areaFn : Contour → ℚ
  brFn : Contour → Rect

/-- The mutable state of one `PCB` instance: the `_cache_cropinfo` and
`_cache_ics` maps (modelled as association lists; `unordered_map::insert`
never overwrites, and lookups here find the most recent insertion, which for
these maps is the only one per key). -/
structure St where
  cacheCropinfo : List (ℤ × Rect)
  cacheIcs : List (ℤ × List Annot)
deriving DecidableEq

/-- The computation part of `PCB::_cropinfo` (after the cache miss): load the
mask and extract contours, sort them by the area of their minimum-area
enclosing rotated rectangles (ascending, `std::sort` with comparator
`ra.size.area() < rb.size.area()`), and return `cv::boundingRect` of the last
one. With an empty contour vector the C++ code reads `cnt[cnt.size()-1]` out
of bounds; that access is the `emptyContoursAccess` error marker. -/
def cropinfoCompute (env : Env) (rid : ℤ) : Except Err Rect :=
  match env.contours rid with
  | none => .error .maskError
  | some cnt =>
    match (cnt.mergeSort (fun a b => decide (env.areaFn a ≤ env.areaFn b))).getLast? with
    | none => .error .emptyContoursAccess
    | some c => .ok (env.brFn c)

/-- `PCB::_cropinfo`: return the cached rectangle if present, otherwise
compute it and insert it into `_cache_cropinfo`. -/
def cropinfo (env : Env) (st : St) (rid : ℤ) : Except Err (Rect × St) :=
  match List.lookup rid st.cacheCropinfo with
  | some r => .ok (r, st)
  | none =>
    match cropinfoCompute env rid with
    | .error e => .error e
    | .ok r => .ok (r, { st with cacheCropinfo := (rid, r) :: st.cacheCropinfo })

/-- The `if(cropped)` step of `PCB::ics` for one surviving line: when
`cropped`, obtain `_cropinfo` (through its cache) and shift the rect's
center; otherwise leave rect and state untouched. -/
def cropStep (env : Env) (st : St) (rid : ℤ) (cropped : Bool) (rr1 : RotatedRect) :
    Except Err (RotatedRect × St) :=
  if cropped then
    match cropinfo env st rid with
    | .error e => .error e
    | .ok (ci, st1) => .ok (cropAdjust rr1 ci, st1)
  else .ok (rr1, st)

/-- The per-line loop of `PCB::ics`: parse, filter, scale, optionally
crop-adjust (computing `_cropinfo` through its cache), join the label and
collect the surviving annotations in file order. -/
def icsLoop (env : Env) (rid : ℤ) (cropped : Bool) (size aspect : ℚ × ℚ) :
    St → List String → Except Err (List Annot × St)
  | st, [] => .ok ([], st)
  | st, line :: rest =>
    match parseLine line with
    | none => .error .malformedLine
    | some (rr, toks) =>
      if icsLineKeep rr size aspect then
        match cropStep env st rid cropped (scaleRect rr env.scale) with
        | .error e => .error e
        | .ok (rr2, st1) =>
          match icsLoop env rid cropped size aspect st1 rest with
          | .error e => .error e
          | .ok (as, st2) => .ok (⟨rr2, env.scale, joinLabel toks⟩ :: as, st2)
      else icsLoop env rid cropped size aspect st rest

/-- `PCB::ics`: if `_cache_ics` holds an entry for `rid`, return it at once
(ignoring all other arguments); otherwise check the recording exists, read the
annotation file, run the per-line loop, cache the result under `rid` and
return it. -/
def ics (env : Env) (st : St) (rid : ℤ) (cropped : Bool) (size aspect : ℚ × ℚ) :
    Except Err (List Annot × St) :=
  match List.lookup rid st.cacheIcs with
  | some v => .ok (v, st)
  | none =>
    if env.recs.contains rid then
      match env.annot rid with
      | none => .error .annotFileMissing
      | some lines =>
        match icsLoop env rid cropped size aspect st lines with
        | .error e => .error e
        | .ok (ret, st1) => .ok (ret, { st1 with cacheIcs := (rid, ret) :: st1.cacheIcs })
    else .error .recordingNotFound

/-- The directory scan of `PCBDataset::PCBDataset` over the names of the
immediate subdirectories: a name of length > 3 starting with `"pcb"` is
registered under `std::stoi` of the rest; `stoi` throwing (no digits) aborts
construction (`none`). Other names are skipped. -/
def scanPCBDirs : List String → Option (List (ℤ × String))
  | [] => some []
  | f :: fs =>
    if f.length > 3 ∧ f.take 3 = "pcb" then
      match stoi (f.drop 3) with
      | none => none
      | some k => (scanPCBDirs fs).map (fun ks => (k, f) :: ks)
    else scanPCBDirs fs

/-- The directory scan of `PCB::PCB` over the names of the immediate regular
files: a name of length > 7 starting with `"rec"` and ending with `".jpg"` is
registered under `std::stoi` of the middle part; `stoi` throwing (no digits)
aborts construction (`none`). Other names are skipped. -/
def scanRecFiles : List String → Option (List (ℤ × String))
  | [] => some []
  | f :: fs =>
    if f.length > 7 ∧ f.take 3 = "rec" ∧ f.takeRight 4 = ".jpg" then
      match stoi ((f.drop 3).dropRight 4) with
      | none => none
      | some k => (scanRecFiles fs).map (fun ks => (k, f) :: ks)
    else scanRecFiles fs

/-- Spec-modelled label join, following the spec's words: "Join remaining
whitespace-separated tokens back into a single space-joined label string,
preserving original token order and skipping empty tokens but reinserting a
single separating space between surviving tokens" (no leading or trailing
spaces). Used only to compare against the source-derived `joinLabel`. -/
def specJoinSep : List String → String
  | [] => ""
  | [t] => t
  | t :: u :: rest => t ++ " " ++ specJoinSep (u :: rest)

/-- Spec-modelled label join: survivors are the nonempty tokens, joined by
single spaces. -/
def specJoinLabel (tokens : List String) : String :=
  specJoinSep (tokens.filter (fun t => !t.isEmpty))

/-- The spec's "physical size in cm² computed from the unscaled rectangle":
`(w / 87.4) * (h / 87.4)` on the parsed, unscaled rect. -/
def specSizeCm2 (rr : RotatedRect) : ℚ :=
  (rr.size.width / ppcm) * (rr.size.height / ppcm)

/-- The spec's aspect ratio of the unscaled rectangle: `max(w,h) / min(w,h)`. -/
def specAspect (rr : RotatedRect) : ℚ :=
  max rr.size.width rr.size.height / min rr.size.width rr.size.height

/-- The claim's rejection condition, written as stated: reject when
`size.min > 0` and `size_cm2 < size.min`, or `size.max > 0` and
`size_cm2 > size.max`, or the analogous aspect-ratio conditions hold, with
`size_cm2` and aspect computed from the unscaled parsed rectangle. -/
def rejectSpecB (rr : RotatedRect) (size aspect : ℚ × ℚ) : Bool :=
  (decide (size.1 > 0) && decide (specSizeCm2 rr < size.1)) ||
  (decide (size.2 > 0) && decide (specSizeCm2 rr > size.2)) ||
  (decide (aspect.1 > 0) && decide (specAspect rr < aspect.1)) ||
  (decide (aspect.2 > 0) && decide (specAspect rr > aspect.2))

/-- Whether the last token of a list is present and empty (the situation in
which `joinLabel` leaves a trailing space). -/
def lastTokenEmpty (ts : List String) : Bool :=
  match ts.getLast? with
  | some t => t.isEmpty
  | none => false

/-- An `Env` for a single PCB recording 1 whose annotation file holds the
given lines; mask/contour collaborators are unused stubs for claims that do
not touch cropping. -/
def mkAnnotEnv (lines : List String) : Env :=
  ⟨1, [1], fun r => if r = 1 then some lines else none,
   fun _ => none, fun _ => 0, fun _ => ⟨0, 0, 0, 0⟩⟩

/-- Recording 1 with an empty annotation file. -/
def envEmptyAnnot : Env := mkAnnotEnv []

/-- Recording 1 with one annotation line whose width field is `0`. -/
def envZeroWidth : Env := mkAnnotEnv ["10 10 0 5 0 X"]

/-- Recording 1 with one annotation line that ends in a space, so the token
list after index 5 is `["X", ""]`. -/
def envTrailingSpace : Env := mkAnnotEnv ["1 2 3 4 5 X "]

/-- Recording 1 with the spec's end-to-end annotation line. -/
def envOneIC : Env := mkAnnotEnv ["50 50 10 10 0 R1 0402"]

/-- A small foreground blob (the spec's 100 px² blob). -/
def blobSmall : Contour := [(0, 0)]

/-- A large foreground blob (the spec's 500 px² blob). -/
def blobLarge : Contour := [(1, 1)]

/-- An `Env` whose mask for recording 1 yields two contours with minimum-area
rotated-rectangle areas 100 and 500, the larger with bounding box (1,1,1,1). -/
def envTwoBlobs : Env :=
  ⟨1, [1], fun _ => none, fun r => if r = 1 then some [blobSmall, blobLarge] else none,
   fun c => if c = blobLarge then 500 else 100,
   fun c => if c = blobLarge then ⟨1, 1, 1, 1⟩ else ⟨0, 0, 0, 0⟩⟩

/-- An `Env` whose mask for recording 1 decodes but yields no contours. -/
def envNoContours : Env :=
  ⟨1, [1], fun _ => none, fun r => if r = 1 then some [] else none,
   fun _ => 0, fun _ => ⟨0, 0, 0, 0⟩⟩

deriving instance DecidableEq for Except

/-- C10: for every `Annot`, `sizePixels(true)` is `rect.size.width *
rect.size.height`, and `sizePixels(false)` is that product divided by the
scale factor — the same divide-by-scale convention `sizeCm2` uses. -/
theorem sizePixels_product_div_scale (a : Annot) :
    a.sizePixels true = a.rect.size.width * a.rect.size.height ∧
    a.sizePixels false = a.rect.size.width * a.rect.size.height / a.scale ∧
    a.sizePixels false = a.sizePixels true / a.scale ∧
    a.sizeCm2 false = a.sizeCm2 true / a.scale := by
  refine ⟨rfl, rfl, rfl, rfl⟩

/-- C2 counterexample: for an `Annot` with scale 2 whose rect dimensions are
already multiplied by 2 (unscaled w = h = 87.4), `sizeCm2(false)` is 2, while
the value computed from the unscaled rectangle is 1 — the claim's equality
fails (the code divides the quadratically scaled area by `scale` only once). -/
theorem sizeCm2_prescaled_cex :
    (Annot.mk ⟨⟨0, 0⟩, ⟨2 * ppcm, 2 * ppcm⟩, 0⟩ 2 "").sizeCm2 false = 2 ∧
    (ppcm / ppcm) * (ppcm / ppcm) = 1 ∧ (2 : ℚ) ≠ 1 := by
  refine ⟨?_, ?_, by norm_num⟩ <;>
    · simp only [Annot.sizeCm2, ppcm]
      norm_num

/-- C2 amended: for an `Annot` with scale factor `s ≠ 0` whose rect dimensions
have already been multiplied by `s`, `sizeCm2(false)` equals `s` times the
value computed from the unscaled rectangle, i.e. `s * (w/87.4) * (h/87.4)`
(not the unscaled value itself: the area scales with `s²` and the code divides
by `s` once). -/
theorem sizeCm2_prescaled (cx cy ang w h s : ℚ) (hs : s ≠ 0) :
    (Annot.mk ⟨⟨cx, cy⟩, ⟨s * w, s * h⟩, ang⟩ s "").sizeCm2 false
      = s * ((w / ppcm) * (h / ppcm)) := by
  have hp : ppcm ≠ 0 := by norm_num [ppcm]
  simp only [Annot.sizeCm2, Bool.false_eq_true, if_false]
  field_simp
  ring

/-- Witness for `sizeCm2_prescaled` at `s = 2`, `w = h = 1`. -/
theorem sizeCm2_prescaled_witness :
    (2 : ℚ) ≠ 0 ∧
    (Annot.mk ⟨⟨0, 0⟩, ⟨2 * 1, 2 * 1⟩, 0⟩ 2 "").sizeCm2 false
      = 2 * ((1 / ppcm) * (1 / ppcm)) :=
  ⟨by norm_num, sizeCm2_prescaled 0 0 0 1 1 2 (by norm_num)⟩

section

attribute [local semireducible] Rat.inv Rat.mul Rat.add Rat.sub List.merge List.mergeSort

/-- C4: on a recording whose mask decodes but yields no foreground contour,
the crop resolver does not report a `NoContours` error — the C++ code performs
the out-of-bounds vector access `cnt[cnt.size()-1]` on the empty contour
vector (undefined behaviour), modelled by the `emptyContoursAccess` marker. -/
theorem cropinfo_no_contours_oob :
    cropinfo envNoContours ⟨[], []⟩ 1 = .error .emptyContoursAccess := by
  decide

/-- C6 counterexample: the line `"10 10 0 5 0 X"` has parsed width 0, yet a
first `ics` call with all filter bounds 0 succeeds and returns that degenerate
annotation — a zero width is not a parse error and the call does not fail. -/
theorem ics_zero_width_cex :
    ics envZeroWidth ⟨[], []⟩ 1 false (0, 0) (0, 0) =
      .ok ([⟨⟨⟨10, 10⟩, ⟨0, 5⟩, 0⟩, 1, "X"⟩],
           ⟨[], [(1, [⟨⟨⟨10, 10⟩, ⟨0, 5⟩, 0⟩, 1, "X"⟩])]⟩) ∧
    (Annot.mk ⟨⟨10, 10⟩, ⟨0, 5⟩, 0⟩ 1 "X").rect.size.width = 0 := by
  constructor
  · decide
  · rfl

/-- C7 counterexample: for the annotation line `"1 2 3 4 5 X "` (token list
`["X", ""]` after index 5) the returned label is `"X "`, with a trailing
space, while a join that skips empty tokens and inserts only separating
spaces yields `"X"`. -/
theorem ics_label_trailing_space_cex :
    ics envTrailingSpace ⟨[], []⟩ 1 false (0, 0) (0, 0) =
      .ok ([⟨⟨⟨1, 2⟩, ⟨3, 4⟩, 5⟩, 1, "X "⟩],
           ⟨[], [(1, [⟨⟨⟨1, 2⟩, ⟨3, 4⟩, 5⟩, 1, "X "⟩])]⟩) ∧
    specJoinLabel ["X", ""] = "X" ∧ ("X " : String) ≠ "X" := by
  refine ⟨by decide, by decide, by decide⟩

/-- C8 counterexample: the subdirectory name `"pcb12x"` has a non-numeric
suffix after the digits, yet `PCBDataset` construction registers it — under
key 12 (`std::stoi("12x")` parses the leading digits) — instead of skipping
it. -/
theorem scanPCBDirs_suffix_cex :
    scanPCBDirs ["pcb12x"] = some [(12, "pcb12x")] ∧
    List.lookup (12 : ℤ) [((12 : ℤ), "pcb12x")] = some "pcb12x" := by
  refine ⟨by decide, by decide⟩

/-- C9 counterexample: `"recab.jpg"` is longer than 7 characters, starts with
`"rec"` and ends with `".jpg"`, yet it is not registered: `std::stoi("ab")`
throws and PCB construction fails (`none`), refuting the registration
if-and-only-if. -/
theorem scanRecFiles_no_digits_cex :
    scanRecFiles ["recab.jpg"] = none ∧
    ("recab.jpg".length > 7 ∧ "recab.jpg".take 3 = "rec" ∧
     "recab.jpg".takeRight 4 = ".jpg") := by
  refine ⟨by decide, by decide, by decide, by decide⟩

end

/-- C1: once an `ics` call for recording `rid` has returned successfully, the
result is in `_cache_ics` under `rid` alone, and every subsequent call on the
resulting state — with any environment and any `cropped`/`size`/`aspect`
arguments — returns exactly the first call's list with the state unchanged
(the cached branch consults nothing but the cache: no re-read, no
re-filter). -/
theorem ics_cache_sticky (env : Env) (st : St) (rid : ℤ) (c : Bool) (s a : ℚ × ℚ)
    (v : List Annot) (st' : St) (h : ics env st rid c s a = .ok (v, st')) :
    ∀ (env' : Env) (c' : Bool) (s' a' : ℚ × ℚ),
      ics env' st' rid c' s' a' = .ok (v, st') := by
  intro env' c' s' a'
  have hl : List.lookup rid st'.cacheIcs = some v := by
    cases hc : List.lookup rid st.cacheIcs with
    | some w =>
      simp only [ics, hc, Except.ok.injEq, Prod.mk.injEq] at h
      obtain ⟨hv, hst⟩ := h
      rw [← hst, hc, hv]
    | none =>
      simp only [ics, hc] at h
      by_cases hrec : env.recs.contains rid = true
      · rw [if_pos hrec] at h
        split at h
        · exact absurd h (by simp)
        · split at h
          · exact absurd h (by simp)
          · simp only [Except.ok.injEq, Prod.mk.injEq] at h
            obtain ⟨hv, hst⟩ := h
            rw [← hst]
            simp [List.lookup, hv]
      · rw [if_neg hrec] at h
        exact absurd h (by simp)
  simp [ics, hl]

section

attribute [local semireducible] Rat.inv Rat.mul Rat.add Rat.sub

/-- Witness for `ics_cache_sticky`: a concrete successful first call for
recording 1, then a second call with different `cropped`/`size`/`aspect`
arguments returning the same cached result and state. -/
theorem ics_cache_sticky_witness :
    ics envEmptyAnnot ⟨[], [(1, [])]⟩ 1 true (1, 2) (3, 4) = .ok ([], ⟨[], [(1, [])]⟩) :=
  ics_cache_sticky envEmptyAnnot ⟨[], []⟩ 1 false (0, 0) (0, 0) [] ⟨[], [(1, [])]⟩
    (by decide) envEmptyAnnot true (1, 2) (3, 4)

end

theorem rejectSpecB_eq_true_iff (rr : RotatedRect) (size aspect : ℚ × ℚ) :
    rejectSpecB rr size aspect = true ↔
      (size.1 > 0 ∧ specSizeCm2 rr < size.1) ∨ (size.2 > 0 ∧ specSizeCm2 rr > size.2) ∨
      (aspect.1 > 0 ∧ specAspect rr < aspect.1) ∨
      (aspect.2 > 0 ∧ specAspect rr > aspect.2) := by
  simp [rejectSpecB, Bool.or_eq_true, Bool.and_eq_true, decide_eq_true_eq, or_assoc]

theorem icsLineKeep_eq_false_iff (rr : RotatedRect) (size aspect : ℚ × ℚ) :
    icsLineKeep rr size aspect = false ↔
      (size.1 > 0 ∧ specSizeCm2 rr < size.1) ∨ (size.2 > 0 ∧ specSizeCm2 rr > size.2) ∨
      (aspect.1 > 0 ∧ specAspect rr < aspect.1) ∨
      (aspect.2 > 0 ∧ specAspect rr > aspect.2) := by
  have hsz : (Annot.mk rr 1 "").sizeCm2 false = specSizeCm2 rr := by
    simp [Annot.sizeCm2, specSizeCm2]
  have hasp : (Annot.mk rr 1 "").aspect = specAspect rr := rfl
  simp only [icsLineKeep, hsz, hasp]
  split_ifs with h1 h2 h3 h4
  · exact iff_of_true rfl (Or.inl h1)
  · exact iff_of_true rfl (Or.inr (Or.inl h2))
  · exact iff_of_true rfl (Or.inr (Or.inr (Or.inl h3)))
  · exact iff_of_true rfl (Or.inr (Or.inr (Or.inr h4)))
  · exact iff_of_false (by decide) (by tauto)

/-- The code's four sequential `continue` tests reject a line exactly when the
claim's disjunction over the unscaled quantities holds. -/
theorem icsLineKeep_eq_not_reject (rr : RotatedRect) (size aspect : ℚ × ℚ) :
    icsLineKeep rr size aspect = !rejectSpecB rr size aspect := by
  cases hb : rejectSpecB rr size aspect with
  | false =>
    cases hk : icsLineKeep rr size aspect with
    | false =>
      exact absurd (rejectSpecB_eq_true_iff rr size aspect |>.mpr
        ((icsLineKeep_eq_false_iff rr size aspect).mp hk)) (by simp [hb])
    | true => rfl
  | true =>
    exact (icsLineKeep_eq_false_iff rr size aspect).mpr
      ((rejectSpecB_eq_true_iff rr size aspect).mp hb)

/-- With all filter bounds 0 no line is rejected. -/
theorem rejectSpecB_zero (rr : RotatedRect) :
    rejectSpecB rr (0, 0) (0, 0) = false := by
  simp [rejectSpecB]

/-- With `cropped = false` the loop of `PCB::ics` leaves the caches untouched
and returns, in file order, the scaled and label-joined annotation for every
line that parses and survives the filters (assuming every line parses). -/
theorem icsLoop_uncropped (env : Env) (rid : ℤ) (size aspect : ℚ × ℚ)
    (lines : List String) :
    ∀ st : St, (∀ l ∈ lines, (parseLine l).isSome) →
      icsLoop env rid false size aspect st lines =
        .ok (((lines.filterMap parseLine).filter
                (fun p => icsLineKeep p.1 size aspect)).map
               (fun p => ⟨scaleRect p.1 env.scale, env.scale, joinLabel p.2⟩), st) := by
  induction lines with
  | nil => intro st _; rfl
  | cons line rest ih =>
    intro st hp
    obtain ⟨q, hq⟩ := Option.isSome_iff_exists.mp (hp line (by simp))
    obtain ⟨rr, toks⟩ := q
    have hrest := ih st (fun l hl => hp l (by simp [hl]))
    cases hk : icsLineKeep rr size aspect with
    | false => simp [icsLoop, hq, hk, hrest, List.filterMap_cons, List.filter_cons]
    | true => simp [icsLoop, hq, hk, hrest, cropStep, List.filterMap_cons, List.filter_cons]

/-- C5: in a first (uncached) `ics` call with `cropped = false`, on a
registered recording whose annotation lines all parse, the returned list holds
exactly the parsed lines (in order) that the claim's rejection disjunction —
over size in cm² and aspect ratio computed from the unscaled parsed rect, with
a bound of 0 disabling its side — does not reject; and with
`size = aspect = (0,0)` no line is ever rejected, so every parsed annotation
is returned. -/
theorem ics_first_call_filter (env : Env) (st : St) (rid : ℤ)
    (lines : List String) (size aspect : ℚ × ℚ)
    (hc : List.lookup rid st.cacheIcs = none)
    (hr : env.recs.contains rid = true)
    (ha : env.annot rid = some lines)
    (hp : ∀ l ∈ lines, (parseLine l).isSome) :
    (ics env st rid false size aspect =
      .ok (((lines.filterMap parseLine).filter
              (fun p => !rejectSpecB p.1 size aspect)).map
             (fun p => ⟨scaleRect p.1 env.scale, env.scale, joinLabel p.2⟩),
           { st with cacheIcs := (rid, ((lines.filterMap parseLine).filter
               (fun p => !rejectSpecB p.1 size aspect)).map
               (fun p => ⟨scaleRect p.1 env.scale, env.scale, joinLabel p.2⟩))
               :: st.cacheIcs })) ∧
    ∀ rr : RotatedRect, rejectSpecB rr (0, 0) (0, 0) = false := by
  refine ⟨?_, rejectSpecB_zero⟩
  have hloop := icsLoop_uncropped env rid size aspect lines st hp
  have hfun : (fun p : RotatedRect × List String => icsLineKeep p.1 size aspect)
      = fun p => !rejectSpecB p.1 size aspect :=
    funext fun p => icsLineKeep_eq_not_reject p.1 size aspect
  rw [hfun] at hloop
  simp only [ics, hc, hr, ha, hloop, eq_self_iff_true, if_true]

/-- C6 amended: an annotation line whose parsed width or height is zero or
negative is not a parse error — `ics` succeeds and (here with all filter
bounds 0, under which no line is rejected) returns the degenerate
annotation like any other. -/
theorem ics_accepts_nonpositive_size (env : Env) (st : St) (rid : ℤ)
    (line : String) (rr : RotatedRect) (toks : List String)
    (hc : List.lookup rid st.cacheIcs = none)
    (hr : env.recs.contains rid = true)
    (ha : env.annot rid = some [line])
    (hp : parseLine line = some (rr, toks))
    (hdeg : rr.size.width ≤ 0 ∨ rr.size.height ≤ 0) :
    ics env st rid false (0, 0) (0, 0) =
      .ok ([⟨scaleRect rr env.scale, env.scale, joinLabel toks⟩],
           { st with cacheIcs :=
               (rid, [⟨scaleRect rr env.scale, env.scale, joinLabel toks⟩])
               :: st.cacheIcs }) := by
  have hloop := icsLoop_uncropped env rid (0, 0) (0, 0) [line] st (by simp [hp])
  have hkeep : icsLineKeep rr (0, 0) (0, 0) = true := by
    rw [icsLineKeep_eq_not_reject, rejectSpecB_zero]
    rfl
  simp only [List.filterMap_cons, hp, List.filterMap_nil, List.filter_cons, hkeep,
    if_true, List.filter_nil, List.map_cons, List.map_nil] at hloop
  simp only [ics, hc, hr, ha, hloop, eq_self_iff_true, if_true]

section

attribute [local semireducible] Rat.inv Rat.mul Rat.add Rat.sub

/-- Witness for `ics_first_call_filter`: the spec's end-to-end line with all
filter bounds 0. -/
theorem ics_first_call_filter_witness :
    ics envOneIC ⟨[], []⟩ 1 false (0, 0) (0, 0) =
      .ok (((["50 50 10 10 0 R1 0402"].filterMap parseLine).filter
              (fun p => !rejectSpecB p.1 (0, 0) (0, 0))).map
             (fun p => ⟨scaleRect p.1 envOneIC.scale, envOneIC.scale, joinLabel p.2⟩),
           ⟨[], [(1, ((["50 50 10 10 0 R1 0402"].filterMap parseLine).filter
              (fun p => !rejectSpecB p.1 (0, 0) (0, 0))).map
             (fun p => ⟨scaleRect p.1 envOneIC.scale, envOneIC.scale, joinLabel p.2⟩))]⟩) :=
  (ics_first_call_filter envOneIC ⟨[], []⟩ 1 ["50 50 10 10 0 R1 0402"] (0, 0) (0, 0)
    (by decide) (by decide) (by decide) (by decide)).1

/-- Witness for `ics_accepts_nonpositive_size`: the zero-width line
`"10 10 0 5 0 X"` is returned, not rejected as a parse error. -/
theorem ics_accepts_nonpositive_size_witness :
    ics envZeroWidth ⟨[], []⟩ 1 false (0, 0) (0, 0) =
      .ok ([⟨scaleRect ⟨⟨10, 10⟩, ⟨0, 5⟩, 0⟩ envZeroWidth.scale, envZeroWidth.scale,
              joinLabel ["X"]⟩],
           ⟨[], [(1, [⟨scaleRect ⟨⟨10, 10⟩, ⟨0, 5⟩, 0⟩ envZeroWidth.scale,
              envZeroWidth.scale, joinLabel ["X"]⟩])]⟩) :=
  ics_accepts_nonpositive_size envZeroWidth ⟨[], []⟩ 1 "10 10 0 5 0 X"
    ⟨⟨10, 10⟩, ⟨0, 5⟩, 0⟩ ["X"] (by decide) (by decide) (by decide) (by decide)
    (Or.inl (by norm_num))

end

/-- C7 amended: the label is the tokens at index ≥ 5 joined in order with
empty tokens skipped and one space between consecutive surviving tokens and
no leading space — but a single trailing space is appended exactly when the
last token is empty and at least one token is nonempty (each surviving token
not at the last index is followed by a space, even when only empty tokens
follow it). -/
theorem joinLabel_trailing_space (ts : List String) :
    joinLabel ts = specJoinLabel ts ++
      (if ts.any (fun t => !t.isEmpty) && lastTokenEmpty ts then " " else "") := by
  induction ts with
  | nil => rfl
  | cons t rest ih =>
    cases rest with
    | nil =>
      cases ht : t.isEmpty with
      | true =>
        simp only [joinLabel, specJoinLabel, lastTokenEmpty, ht]
        simp [specJoinSep, ht]
      | false => simp [joinLabel, specJoinLabel, specJoinSep, lastTokenEmpty, ht]
    | cons u rest' =>
      have hlast : lastTokenEmpty (t :: u :: rest') = lastTokenEmpty (u :: rest') := by
        simp [lastTokenEmpty]
      cases ht : t.isEmpty with
      | true =>
        simp [joinLabel, ht, ih, specJoinLabel, List.filter_cons, hlast]
      | false =>
        rcases hf : (u :: rest').filter (fun s => !s.isEmpty) with _ | ⟨v, vs⟩
        · have hall : ∀ x ∈ u :: rest', x.isEmpty = true := by
            intro x hx
            simpa using List.filter_eq_nil_iff.mp hf x hx
          have hany : (u :: rest').any (fun s => !s.isEmpty) = false := by
            simp only [List.any_eq_false]
            intro x hx
            simp [hall x hx]
          have hlast2 : lastTokenEmpty (u :: rest') = true := by
            obtain ⟨x, hx⟩ := Option.isSome_iff_exists.mp
              ((List.getLast?_isSome (l := u :: rest')).mpr (by simp))
            simp [lastTokenEmpty, hx, hall x (List.mem_of_getLast?_eq_some hx)]
          have hsl : specJoinLabel (u :: rest') = "" := by
            simp only [specJoinLabel, hf]
            rfl
          simp [joinLabel, ht, ih, specJoinLabel, List.filter_cons, hf, hany,
            hlast, hlast2, hsl, specJoinSep]
        · have hv := List.mem_filter.mp (hf ▸ List.mem_cons_self v vs)
          have hany : (u :: rest').any (fun s => !s.isEmpty) = true :=
            List.any_eq_true.mpr ⟨v, hv.1, hv.2⟩
          have hsl : specJoinLabel (u :: rest') = specJoinSep (v :: vs) := by
            simp [specJoinLabel, hf]
          simp [joinLabel, ht, ih, hsl, specJoinLabel, List.filter_cons, hf,
            specJoinSep, hany, hlast, String.append_assoc]

/-- C8 amended: a subdirectory is registered exactly when its name is longer
than 3 characters, starts with `"pcb"`, and `std::stoi` succeeds on the rest
(a leading-digits parse: a non-numeric suffix after digits is accepted, so
`pcb12x` is registered under key 12); the scan aborts construction (throws)
exactly when some subdirectory passes the prefix test but its remainder has
no leading digits at all. -/
theorem scanPCBDirs_characterization (fs : List String) :
    (∀ ks, scanPCBDirs fs = some ks →
      ∀ (k : ℤ) (f : String), (k, f) ∈ ks ↔
        (f ∈ fs ∧ f.length > 3 ∧ f.take 3 = "pcb" ∧ stoi (f.drop 3) = some k)) ∧
    (scanPCBDirs fs = none ↔
      ∃ f ∈ fs, f.length > 3 ∧ f.take 3 = "pcb" ∧ stoi (f.drop 3) = none) := by
  induction fs with
  | nil =>
    refine ⟨fun ks hks k f => ?_, by simp [scanPCBDirs]⟩
    simp only [scanPCBDirs, Option.some.injEq] at hks
    subst hks
    simp
  | cons g gs ih =>
    obtain ⟨ih1, ih2⟩ := ih
    by_cases hg : g.length > 3 ∧ g.take 3 = "pcb"
    · cases hstoi : stoi (g.drop 3) with
      | none =>
        refine ⟨fun ks hks k f => ?_, ?_⟩
        · simp only [scanPCBDirs, if_pos hg, hstoi] at hks
          exact absurd hks (by simp)
        · simp only [scanPCBDirs, if_pos hg, hstoi]
          exact iff_of_true trivial ⟨g, List.mem_cons_self g gs, hg.1, hg.2, hstoi⟩
      | some k0 =>
        refine ⟨fun ks hks k f => ?_, ?_⟩
        · simp only [scanPCBDirs, if_pos hg, hstoi] at hks
          cases hgs : scanPCBDirs gs with
          | none => rw [hgs] at hks; exact absurd hks (by simp)
          | some ks' =>
            rw [hgs] at hks
            simp only [Option.map_some', Option.some.injEq] at hks
            subst hks
            constructor
            · intro hm
              rcases List.mem_cons.mp hm with he | hm'
              · rw [Prod.mk.injEq] at he
                obtain ⟨hk, hf⟩ := he
                subst hk
                subst hf
                exact ⟨List.mem_cons_self _ _, hg.1, hg.2, hstoi⟩
              · obtain ⟨hmem, hrest⟩ := (ih1 ks' hgs k f).mp hm'
                exact ⟨List.mem_cons_of_mem _ hmem, hrest⟩
            · rintro ⟨hmem, hlen, htake, hsome⟩
              rcases List.mem_cons.mp hmem with rfl | hmem'
              · rw [hstoi] at hsome
                injection hsome with hk
                subst hk
                exact List.mem_cons_self _ _
              · exact List.mem_cons_of_mem _
                  ((ih1 ks' hgs k f).mpr ⟨hmem', hlen, htake, hsome⟩)
        · simp only [scanPCBDirs, if_pos hg, hstoi]
          cases hgs : scanPCBDirs gs with
          | none =>
            simp only [Option.map_none']
            refine iff_of_true trivial ?_
            obtain ⟨f, hf, hrest⟩ := ih2.mp hgs
            exact ⟨f, List.mem_cons_of_mem _ hf, hrest⟩
          | some ks' =>
            simp only [Option.map_some']
            refine iff_of_false (by simp) ?_
            rintro ⟨f, hmem, hlen, htake, hnone⟩
            rcases List.mem_cons.mp hmem with rfl | hmem'
            · rw [hstoi] at hnone
              exact absurd hnone (by simp)
            · have hn : scanPCBDirs gs = none := ih2.mpr ⟨f, hmem', hlen, htake, hnone⟩
              rw [hgs] at hn
              exact absurd hn (by simp)
    · have hscan : scanPCBDirs (g :: gs) = scanPCBDirs gs := by
        simp only [scanPCBDirs, if_neg hg]
      refine ⟨fun ks hks k f => ?_, ?_⟩
      · rw [hscan] at hks
        rw [ih1 ks hks k f]
        constructor
        · rintro ⟨hmem, hrest⟩
          exact ⟨List.mem_cons_of_mem _ hmem, hrest⟩
        · rintro ⟨hmem, hlen, htake, hsome⟩
          rcases List.mem_cons.mp hmem with rfl | hmem'
          · exact absurd ⟨hlen, htake⟩ hg
          · exact ⟨hmem', hlen, htake, hsome⟩
      · rw [hscan, ih2]
        constructor
        · rintro ⟨f, hf, hrest⟩
          exact ⟨f, List.mem_cons_of_mem _ hf, hrest⟩
        · rintro ⟨f, hmem, hlen, htake, hnone⟩
          rcases List.mem_cons.mp hmem with rfl | hmem'
          · exact absurd ⟨hlen, htake⟩ hg
          · exact ⟨f, hmem', hlen, htake, hnone⟩

/-- Witness for `scanPCBDirs_characterization`: the directory `"pcb7"` is
registered under key 7. -/
theorem scanPCBDirs_characterization_witness :
    ((7 : ℤ), "pcb7") ∈ [((7 : ℤ), "pcb7")] :=
  ((scanPCBDirs_characterization ["pcb7"]).1 [((7 : ℤ), "pcb7")] (by decide) 7 "pcb7").mpr
    ⟨by decide, by decide, by decide, by decide⟩

/-- C9 amended: a regular file is registered as a recording exactly when its
name is longer than 7 characters, starts with `"rec"`, ends with `".jpg"`,
and `std::stoi` succeeds on the middle substring (leading-digits parse, so
`rec12a.jpg` registers under 12 and `rec.jpg` is never registered); when the
name matches the pattern but the middle has no leading digits (`recab.jpg`),
`stoi` throws and PCB construction fails — the file is neither registered nor
skipped. -/
theorem scanRecFiles_characterization (fs : List String) :
    (∀ ks, scanRecFiles fs = some ks →
      ∀ (k : ℤ) (f : String), (k, f) ∈ ks ↔
        (f ∈ fs ∧ f.length > 7 ∧ f.take 3 = "rec" ∧ f.takeRight 4 = ".jpg" ∧
         stoi ((f.drop 3).dropRight 4) = some k)) ∧
    (scanRecFiles fs = none ↔
      ∃ f ∈ fs, f.length > 7 ∧ f.take 3 = "rec" ∧ f.takeRight 4 = ".jpg" ∧
        stoi ((f.drop 3).dropRight 4) = none) := by
  induction fs with
  | nil =>
    refine ⟨fun ks hks k f => ?_, by simp [scanRecFiles]⟩
    simp only [scanRecFiles, Option.some.injEq] at hks
    subst hks
    simp
  | cons g gs ih =>
    obtain ⟨ih1, ih2⟩ := ih
    by_cases hg : g.length > 7 ∧ g.take 3 = "rec" ∧ g.takeRight 4 = ".jpg"
    · cases hstoi : stoi ((g.drop 3).dropRight 4) with
      | none =>
        refine ⟨fun ks hks k f => ?_, ?_⟩
        · simp only [scanRecFiles, if_pos hg, hstoi] at hks
          exact absurd hks (by simp)
        · simp only [scanRecFiles, if_pos hg, hstoi]
          exact iff_of_true trivial
            ⟨g, List.mem_cons_self g gs, hg.1, hg.2.1, hg.2.2, hstoi⟩
      | some k0 =>
        refine ⟨fun ks hks k f => ?_, ?_⟩
        · simp only [scanRecFiles, if_pos hg, hstoi] at hks
          cases hgs : scanRecFiles gs with
          | none => rw [hgs] at hks; exact absurd hks (by simp)
          | some ks' =>
            rw [hgs] at hks
            simp only [Option.map_some', Option.some.injEq] at hks
            subst hks
            constructor
            · intro hm
              rcases List.mem_cons.mp hm with he | hm'
              · rw [Prod.mk.injEq] at he
                obtain ⟨hk, hf⟩ := he
                subst hk
                subst hf
                exact ⟨List.mem_cons_self _ _, hg.1, hg.2.1, hg.2.2, hstoi⟩
              · obtain ⟨hmem, hrest⟩ := (ih1 ks' hgs k f).mp hm'
                exact ⟨List.mem_cons_of_mem _ hmem, hrest⟩
            · rintro ⟨hmem, hlen, htake, htail, hsome⟩
              rcases List.mem_cons.mp hmem with rfl | hmem'
              · rw [hstoi] at hsome
                injection hsome with hk
                subst hk
                exact List.mem_cons_self _ _
              · exact List.mem_cons_of_mem _
                  ((ih1 ks' hgs k f).mpr ⟨hmem', hlen, htake, htail, hsome⟩)
        · simp only [scanRecFiles, if_pos hg, hstoi]
          cases hgs : scanRecFiles gs with
          | none =>
            simp only [Option.map_none']
            refine iff_of_true trivial ?_
            obtain ⟨f, hf, hrest⟩ := ih2.mp hgs
            exact ⟨f, List.mem_cons_of_mem _ hf, hrest⟩
          | some ks' =>
            simp only [Option.map_some']
            refine iff_of_false (by simp) ?_
            rintro ⟨f, hmem, hlen, htake, htail, hnone⟩
            rcases List.mem_cons.mp hmem with rfl | hmem'
            · rw [hstoi] at hnone
              exact absurd hnone (by simp)
            · have hn : scanRecFiles gs = none :=
                ih2.mpr ⟨f, hmem', hlen, htake, htail, hnone⟩
              rw [hgs] at hn
              exact absurd hn (by simp)
    · have hscan : scanRecFiles (g :: gs) = scanRecFiles gs := by
        simp only [scanRecFiles, if_neg hg]
      refine ⟨fun ks hks k f => ?_, ?_⟩
      · rw [hscan] at hks
        rw [ih1 ks hks k f]
        constructor
        · rintro ⟨hmem, hrest⟩
          exact ⟨List.mem_cons_of_mem _ hmem, hrest⟩
        · rintro ⟨hmem, hlen, htake, htail, hsome⟩
          rcases List.mem_cons.mp hmem with rfl | hmem'
          · exact absurd ⟨hlen, htake, htail⟩ hg
          · exact ⟨hmem', hlen, htake, htail, hsome⟩
      · rw [hscan, ih2]
        constructor
        · rintro ⟨f, hf, hrest⟩
          exact ⟨f, List.mem_cons_of_mem _ hf, hrest⟩
        · rintro ⟨f, hmem, hlen, htake, htail, hnone⟩
          rcases List.mem_cons.mp hmem with rfl | hmem'
          · exact absurd ⟨hlen, htake, htail⟩ hg
          · exact ⟨f, hmem', hlen, htake, htail, hnone⟩

/-- In a list that is pairwise sorted by nondecreasing `f`-value, the last
element has the largest `f`-value. -/
theorem getLast_max_of_pairwise {α : Type} (f : α → ℚ) :
    ∀ (l : List α) (x : α), l.Pairwise (fun a b => f a ≤ f b) → l.getLast? = some x →
      ∀ y ∈ l, f y ≤ f x := by
  intro l
  induction l with
  | nil =>
    intro x _ hx
    simp at hx
  | cons a t ih =>
    intro x hp hx y hy
    cases t with
    | nil =>
      simp only [List.getLast?_singleton, Option.some.injEq] at hx
      rcases List.mem_singleton.mp hy with rfl
      rw [hx]
    | cons b t' =>
      rw [List.getLast?_cons_cons] at hx
      obtain ⟨ha, hp'⟩ := List.pairwise_cons.mp hp
      rcases List.mem_cons.mp hy with rfl | hy'
      · exact ha x (List.mem_of_getLast?_eq_some hx)
      · exact ih x hp' hx y hy'

/-- C3: on a cache miss, when the mask's contour extraction yields a contour
list containing a contour `c` whose minimum-area enclosing rotated rectangle
has strictly the largest area, `_cropinfo` returns `cv::boundingRect` of that
single contour and caches it under the recording ID; a second call returns
the cached rectangle with the state unchanged (computed at most once per
recording per PCB instance). -/
theorem cropinfo_largest_contour (env : Env) (st : St) (rid : ℤ)
    (cnt : List Contour) (c : Contour)
    (hcache : List.lookup rid st.cacheCropinfo = none)
    (hcnt : env.contours rid = some cnt)
    (hmem : c ∈ cnt)
    (hmax : ∀ d ∈ cnt, d ≠ c → env.areaFn d < env.areaFn c) :
    cropinfo env st rid =
      .ok (env.brFn c,
           { st with cacheCropinfo := (rid, env.brFn c) :: st.cacheCropinfo }) ∧
    cropinfo env { st with cacheCropinfo := (rid, env.brFn c) :: st.cacheCropinfo } rid =
      .ok (env.brFn c,
           { st with cacheCropinfo := (rid, env.brFn c) :: st.cacheCropinfo }) := by
  have hcompute : cropinfoCompute env rid = .ok (env.brFn c) := by
    have hsort : (cnt.mergeSort
        (fun a b => decide (env.areaFn a ≤ env.areaFn b))).Pairwise
        (fun a b => env.areaFn a ≤ env.areaFn b) := by
      have hpw := @List.sorted_mergeSort Contour
        (fun a b : Contour => decide (env.areaFn a ≤ env.areaFn b))
        (fun a b d h1 h2 => by
          simp only [decide_eq_true_eq] at h1 h2 ⊢
          exact le_trans h1 h2)
        (fun a b => by
          simp only [Bool.or_eq_true, decide_eq_true_eq]
          exact le_total (env.areaFn a) (env.areaFn b))
        cnt
      exact hpw.imp (fun h => by simpa using h)
    have hcs : c ∈ cnt.mergeSort (fun a b => decide (env.areaFn a ≤ env.areaFn b)) :=
      List.mem_mergeSort.mpr hmem
    have hne : cnt.mergeSort (fun a b => decide (env.areaFn a ≤ env.areaFn b)) ≠ [] := by
      intro h
      rw [h] at hcs
      exact absurd hcs (List.not_mem_nil c)
    obtain ⟨x, hx⟩ := Option.isSome_iff_exists.mp (List.getLast?_isSome.mpr hne)
    have hxcnt : x ∈ cnt := List.mem_mergeSort.mp (List.mem_of_getLast?_eq_some hx)
    have hcx : env.areaFn c ≤ env.areaFn x :=
      getLast_max_of_pairwise env.areaFn _ x hsort hx c hcs
    have hxc : x = c := by
      by_contra hne'
      exact absurd hcx (not_le.mpr (hmax x hxcnt hne'))
    subst hxc
    simp only [cropinfoCompute, hcnt, hx]
  refine ⟨?_, ?_⟩
  · simp only [cropinfo, hcache, hcompute]
  · simp [cropinfo, List.lookup]

/-- Witness for `cropinfo_largest_contour`: two blobs with areas 100 and 500;
the bounding box of the 500 px² blob is selected and cached. -/
theorem cropinfo_largest_contour_witness :
    cropinfo envTwoBlobs ⟨[], []⟩ 1 = .ok (⟨1, 1, 1, 1⟩, ⟨[(1, ⟨1, 1, 1, 1⟩)], []⟩) ∧
    cropinfo envTwoBlobs ⟨[(1, ⟨1, 1, 1, 1⟩)], []⟩ 1 =
      .ok (⟨1, 1, 1, 1⟩, ⟨[(1, ⟨1, 1, 1, 1⟩)], []⟩) :=
  cropinfo_largest_contour envTwoBlobs ⟨[], []⟩ 1 [blobSmall, blobLarge] blobLarge
    (by decide) (by decide) (by decide) (by decide)

/-- Witness for `scanRecFiles_characterization`: `"rec12a.jpg"` is registered
under recording ID 12. -/
theorem scanRecFiles_characterization_witness :
    ((12 : ℤ), "rec12a.jpg") ∈ [((12 : ℤ), "rec12a.jpg")] :=
  ((scanRecFiles_characterization ["rec12a.jpg"]).1 [((12 : ℤ), "rec12a.jpg")]
    (by decide) 12 "rec12a.jpg").mpr
    ⟨by decide, by decide, by decide, by decide, by decide⟩

end Pcbdataset
